import Mathlib

/-!
Verification of `scripts/cache_bust.py`.

The script scans `*.html` files under a `public/` directory and rewrites
local `href=`/`src=` references to `.css`/`.js` files, appending a
`?v=<version>` query parameter.  This file gives a shallow embedding of the
script and proves properties of it.

Embedding conventions:
* Text is modelled as `List Char` (Python `str`).  Case-insensitive matching
  of the regex's ASCII literals (`href`, `src`, `css`, `js`) is modelled via
  `Char.toLower`.
* The regex `CSS_JS_RE` and `re.sub`'s leftmost, non-overlapping scan with
  backtracking (greedy path group, optional query group) are modelled by an
  explicit scanner: `tryMatchAt` finds a match anchored at the head of a
  string, and `cssJsSub` performs the full substitution pass.
* The filesystem is a record `Env`: which paths exist, the integer-truncated
  modification time of each path (`none` models an `OSError` from `stat`),
  the integer-truncated current time, and the project root directory.
  `pathlib` joining and `resolve()` are modelled lexically for absolute
  POSIX paths (no symlinks).
* `process_file` and the `__main__` block are modelled as pure functions
  returning the would-be writes and printed lines.
-/

/-- Lowercasing of a character, modelling Python's `re.IGNORECASE` on the
ASCII literals appearing in `CSS_JS_RE`. -/
def lc (c : Char) : Char := c.toLower

/-- The two quote characters recognised by `CSS_JS_RE` (`"` and `'`). -/
def isQuote (c : Char) : Bool := c = '"' || c = '\''

/-- Characters allowed in the path/query groups of `CSS_JS_RE` (the character
class excluding both quote characters). -/
def nonQuote (c : Char) : Bool := !(isQuote c)

/-- Match the attribute alternation `(?:href|src)` (case-insensitive) at the
head of the text, returning how many characters it consumed. -/
def attrLen (cs : List Char) : Option Nat :=
  if (cs.take 4).map lc = ['h', 'r', 'e', 'f'] then some 4
  else if (cs.take 3).map lc = ['s', 'r', 'c'] then some 3
  else none

/-- Does `l` end (case-insensitively) with the pattern `pat` (given in
lowercase)? -/
def endsCI (pat : List Char) (l : List Char) : Bool :=
  pat.reverse.isPrefixOf ((l.map lc).reverse)

/-- A valid capture for the path group `[^"\']+\.(?:css|js)`: at least one
character, then a dot, then `css` or `js`, case-insensitively. -/
def validPath (p : List Char) : Bool :=
  (decide (5 ≤ p.length) && endsCI ['.', 'c', 's', 's'] p) ||
  (decide (4 ≤ p.length) && endsCI ['.', 'j', 's'] p)

/-- A valid remainder for the optional query group `(?:\?[^"\']*)?`: either
empty, or starting with `?` (the rest is automatically quote-free inside a
chunk). -/
def validQuery (q : List Char) : Bool :=
  match q with
  | [] => true
  | c :: _ => c = '?'

/-- Greedy split search: the largest `k ≤ bound` such that the first `k`
characters of `chunk` form a valid path capture and the remainder of `chunk`
a valid query, modelling the regex engine's backtracking on the greedy
path group. -/
def findSplitAux (chunk : List Char) : Nat → Option Nat
  | 0 => none
  | k + 1 =>
    if validPath (chunk.take (k + 1)) && validQuery (chunk.drop (k + 1)) then some (k + 1)
    else findSplitAux chunk k

/-- The split of a quote-free chunk into path capture and query remainder
chosen by the regex engine (greedy, hence largest). -/
def findSplit (chunk : List Char) : Option Nat := findSplitAux chunk chunk.length

/-- A match of `CSS_JS_RE`: the named groups `prefix` (attribute, `=`, and
opening quote), `path`, and `suffix` (closing quote), plus the unnamed
consumed query text. -/
structure LinkMatch where
  pre : List Char
  path : List Char
  query : List Char
  suf : List Char
deriving DecidableEq

/-- `match.group(0)`: the whole matched text. -/
def LinkMatch.group0 (m : LinkMatch) : List Char := m.pre ++ m.path ++ m.query ++ m.suf

/-- Stage of `tryMatchAt` after the attribute, `=`, and opening quote have
matched: the path/query chunk runs to the first quote character, which must
exist and closes the match; the greedy backtracking split of the chunk is
`findSplit`. -/
def tryAfterQuote (attr : List Char) (q1 : Char) (r2 : List Char) :
    Option (LinkMatch × Nat) :=
  match r2.dropWhile nonQuote with
  | [] => none
  | q2 :: _ =>
    if isQuote q2 then
      match findSplit (r2.takeWhile nonQuote) with
      | some k =>
        some ({ pre := attr ++ ['=', q1]
                path := (r2.takeWhile nonQuote).take k
                query := (r2.takeWhile nonQuote).drop k
                suf := [q2] },
              attr.length + 2 + (r2.takeWhile nonQuote).length + 1)
      | none => none
    else none

/-- Stage of `tryMatchAt` after the attribute has matched: require `=` and an
opening quote. -/
def tryAfterAttr (attr rest : List Char) : Option (LinkMatch × Nat) :=
  match rest with
  | e :: q1 :: r2 => if e = '=' && isQuote q1 then tryAfterQuote attr q1 r2 else none
  | _ => none

/-- Try to match `CSS_JS_RE` anchored at the head of `cs`.  On success,
return the match and its total length. -/
def tryMatchAt (cs : List Char) : Option (LinkMatch × Nat) :=
  match attrLen cs with
  | none => none
  | some a => tryAfterAttr (cs.take a) (cs.drop a)

/-- The ambient filesystem and clock.  `mtimeInt p` is `int(stat(p).st_mtime)`
when `stat` succeeds and `none` when it raises; `nowInt` is
`int(time.time())`; `rootDir` is the resolved project root `ROOT`. -/
structure Env where
  pathExists : String → Bool
  mtimeInt : String → Option Int
  nowInt : Int
  rootDir : String

/-- `PUBLIC = ROOT / "public"`. -/
def publicDir (env : Env) : String := env.rootDir ++ "/public"

/-- Python `str.startswith` (case-sensitive). -/
def strStarts (s pat : String) : Bool := pat.data.isPrefixOf s.data

/-- `pathlib` `/` on POSIX: joining with an absolute segment discards the
left operand. -/
def pjoin (d rel : String) : String :=
  if strStarts rel "/" then rel else d ++ "/" ++ rel

/-- Split a character list on `/`. -/
def splitSlashAux : List Char → List Char → List (List Char)
  | [], acc => [acc.reverse]
  | c :: rest, acc =>
    if c = '/' then acc.reverse :: splitSlashAux rest [] else splitSlashAux rest (c :: acc)

/-- Rebuild an absolute path from segments, each preceded by `/`. -/
def joinSegsAux : List (List Char) → List Char
  | [] => []
  | s :: rest => '/' :: (s ++ joinSegsAux rest)

/-- `Path.resolve()` modelled lexically for absolute POSIX paths without
symlinks: drop empty and `.` segments, fold `..` against the parent,
rebuild. -/
def resolvePath (p : String) : String :=
  let segs := (splitSlashAux p.data []).filter (fun s => decide (s ≠ [] ∧ s ≠ ['.']))
  let folded := segs.foldl (fun acc s => if s = ['.', '.'] then acc.dropLast else acc ++ [s]) []
  String.mk (if folded.isEmpty then ['/'] else joinSegsAux folded)

/-- `Path.parent` for an absolute POSIX path. -/
def dirname (p : String) : String :=
  let segs := (splitSlashAux p.data []).filter (fun s => decide (s ≠ []))
  String.mk (if segs.dropLast.isEmpty then ['/'] else joinSegsAux segs.dropLast)

/-- `mtime_version`: the integer-truncated modification time of `p`, falling
back to the integer-truncated current time when `stat` raises. -/
def mtimeVersion (env : Env) (p : String) : String :=
  match env.mtimeInt p with
  | some t => toString t
  | none => toString env.nowInt

/-- `v = version or mtime_version(target)`: Python string truthiness makes an
absent or empty version fall back to the modification time. -/
def pickVersion (env : Env) (version : Option String) (target : String) : String :=
  match version with
  | none => mtimeVersion env target
  | some s => if s = "" then mtimeVersion env target else s

/-- `replace_match(match, html_dir, version)`. -/
def replaceMatch (env : Env) (htmlDir : String) (version : Option String) (m : LinkMatch) :
    List Char :=
  let rel : String := String.mk m.path
  if strStarts rel "http://" || strStarts rel "https://" || strStarts rel "//" then
    m.group0
  else
    let target0 := resolvePath (pjoin htmlDir rel)
    let target :=
      if env.pathExists target0 then target0
      else
        let candidate := resolvePath (pjoin (publicDir env) rel)
        if env.pathExists candidate then candidate else target0
    if !(env.pathExists target) then m.group0
    else
      let v : String := pickVersion env version target
      let cleanRel := m.path.takeWhile (fun c => decide (c ≠ '?'))
      m.pre ++ cleanRel ++ ('?' :: 'v' :: '=' :: v.data) ++ m.suf

/-- One fuel-indexed pass of `CSS_JS_RE.sub(repl, ·)`: scan left to right,
replace each leftmost match and continue after it.  The fuel only serves
structural recursion; `cssJsSub` supplies enough for the whole text. -/
def subFuel (env : Env) (htmlDir : String) (version : Option String) :
    Nat → List Char → List Char
  | 0, cs => cs
  | _ + 1, [] => []
  | f + 1, c :: rest =>
    match tryMatchAt (c :: rest) with
    | some (m, n) =>
      replaceMatch env htmlDir version m ++ subFuel env htmlDir version f (rest.drop (n - 1))
    | none => c :: subFuel env htmlDir version f rest

/-- `CSS_JS_RE.sub(repl, text)` on character lists. -/
def cssJsSub (env : Env) (htmlDir : String) (version : Option String) (cs : List Char) :
    List Char :=
  subFuel env htmlDir version cs.length cs

/-- `CSS_JS_RE.sub(repl, text)` on strings. -/
def processText (env : Env) (htmlDir : String) (version : Option String) (text : String) :
    String :=
  String.mk (cssJsSub env htmlDir version text.data)

/-- Result of `process_file`: the content written back (if any) and the
printed lines. -/
structure FileResult where
  newContent : Option String
  output : List String
deriving DecidableEq

/-- `path.relative_to(ROOT)` rendered as a string. -/
def relToRoot (rootDir p : String) : String :=
  if strStarts p (rootDir ++ "/") then String.mk (p.data.drop (rootDir.data.length + 1)) else p

/-- `process_file(path)` given the file's current text. -/
def processFile (env : Env) (version : Option String) (p : String) (text : String) :
    FileResult :=
  let newText := processText env (dirname p) version text
  if newText ≠ text then
    { newContent := some newText, output := ["Updated: " ++ relToRoot env.rootDir p] }
  else
    { newContent := none, output := [] }

/-- Observable outcome of one run of the script. -/
structure RunOutcome where
  exitCode : Nat
  stdout : List String
  writes : List (String × String)
deriving DecidableEq

/-- The `__main__` block: check that `PUBLIC` exists (else print and exit 1),
then process every discovered HTML file (given as path/content pairs, in
discovery order) and print `Done.`. -/
def mainRun (env : Env) (version : Option String) (htmlFiles : List (String × String)) :
    RunOutcome :=
  if !(env.pathExists (publicDir env)) then
    { exitCode := 1, stdout := ["public/ not found"], writes := [] }
  else
    let results := htmlFiles.map (fun pf => (pf.1, processFile env version pf.1 pf.2))
    { exitCode := 0
      stdout := (results.map (fun r => r.2.output)).flatten ++ ["Done."]
      writes := results.filterMap (fun r => r.2.newContent.map (fun t => (r.1, t))) }

/-- Does `l` end (case-insensitively) in `href=` or `src=`?  Texts whose
quote-free interior ends this way can recombine with a following quote into
a fresh attribute match. -/
def endsAttrEq (l : List Char) : Bool :=
  decide ((l.map lc).reverse.take 5 = ['=', 'f', 'e', 'r', 'h']) ||
  decide ((l.map lc).reverse.take 4 = ['=', 'c', 'r', 's'])

/-- The attribute alternation as a predicate on the consumed characters. -/
def attrIs (attr : List Char) : Prop :=
  attr.map lc = ['h', 'r', 'e', 'f'] ∨ attr.map lc = ['s', 'r', 'c']

/-! ### Basic facts about the scanner's building blocks -/

lemma isQuote_of_nonQuote_false {c : Char} (h : nonQuote c = false) : isQuote c = true := by
  unfold nonQuote at h
  cases hq : isQuote c <;> simp [hq] at h ⊢

lemma nonQuote_false_of_isQuote {c : Char} (h : isQuote c = true) : nonQuote c = false := by
  simp [nonQuote, h]

lemma takeWhile_append_stop {p : Char → Bool} {xs : List Char}
    (hx : ∀ c ∈ xs, p c = true) {y : Char} (hy : p y = false) (ys : List Char) :
    (xs ++ y :: ys).takeWhile p = xs := by
  induction xs with
  | nil => simp [List.takeWhile_cons, hy]
  | cons a t ih =>
    have ha : p a = true := hx a (by simp)
    rw [List.cons_append, List.takeWhile_cons, ha]
    simp [ih (fun c hc => hx c (by simp [hc]))]

lemma dropWhile_append_stop {p : Char → Bool} {xs : List Char}
    (hx : ∀ c ∈ xs, p c = true) {y : Char} (hy : p y = false) (ys : List Char) :
    (xs ++ y :: ys).dropWhile p = y :: ys := by
  induction xs with
  | nil => simp [List.dropWhile_cons, hy]
  | cons a t ih =>
    have ha : p a = true := hx a (by simp)
    rw [List.cons_append, List.dropWhile_cons, ha]
    simp [ih (fun c hc => hx c (by simp [hc]))]

lemma lc_quote {q : Char} (h : isQuote q = true) : lc q = q := by
  unfold isQuote at h
  rcases Bool.or_eq_true_iff.mp h with h' | h' <;>
    · have : q = '"' ∨ q = '\'' := by
        first
        | exact Or.inl (by exact decide_eq_true_eq.mp h')
        | exact Or.inr (by exact decide_eq_true_eq.mp h')
      rcases this with rfl | rfl <;> decide

lemma quote_ne_h {q : Char} (h : isQuote q = true) : lc q ≠ 'h' ∧ lc q ≠ 's' := by
  unfold isQuote at h
  rcases Bool.or_eq_true_iff.mp h with h' | h' <;>
    · have h'' := decide_eq_true_eq.mp h'
      subst h''
      exact ⟨by decide, by decide⟩

lemma attrLen_some_inv {cs : List Char} {a : Nat} (h : attrLen cs = some a) :
    attrIs (cs.take a) ∧ (cs.take a).length = a := by
  unfold attrLen at h
  split at h
  case isTrue h4 =>
    have ha : a = 4 := by injection h with h'; omega
    subst ha
    refine ⟨Or.inl h4, ?_⟩
    have := congrArg List.length h4
    simpa using this
  case isFalse =>
    split at h
    case isTrue h3 =>
      have ha : a = 3 := by injection h with h'; omega
      subst ha
      refine ⟨Or.inr h3, ?_⟩
      have := congrArg List.length h3
      simpa using this
    case isFalse => exact absurd h (by simp)

lemma attrIs_length {attr : List Char} (h : attrIs attr) :
    attr.length = 4 ∨ attr.length = 3 := by
  rcases h with h | h
  · left
    have := congrArg List.length h
    simpa using this
  · right
    have := congrArg List.length h
    simpa using this

lemma attrLen_append {attr : List Char} (h : attrIs attr) (ys : List Char) :
    attrLen (attr ++ ys) = some attr.length := by
  rcases h with h | h
  · have hlen : attr.length = 4 := by
      have := congrArg List.length h; simpa using this
    have htake : (attr ++ ys).take 4 = attr := by
      rw [← hlen]; exact List.take_left _ _
    unfold attrLen
    rw [htake, if_pos h, hlen]
  · have hlen : attr.length = 3 := by
      have := congrArg List.length h; simpa using this
    have htake4 : (attr ++ ys).take 4 = attr ++ ys.take 1 := by
      have : (4 : Nat) = attr.length + 1 := by omega
      rw [this]; exact List.take_append 1
    have htake3 : (attr ++ ys).take 3 = attr := by
      rw [← hlen]; exact List.take_left _ _
    unfold attrLen
    rw [htake4, if_neg, htake3, if_pos h, hlen]
    intro heq
    rw [List.map_append, h] at heq
    have : 's' = 'h' := by
      have := List.head_eq_of_cons_eq heq
      exact this
    simp at this

lemma attrLen_cons_none {c : Char} {cs : List Char} (h1 : lc c ≠ 'h') (h2 : lc c ≠ 's') :
    attrLen (c :: cs) = none := by
  unfold attrLen
  rw [if_neg, if_neg]
  · intro heq
    rw [List.take_succ_cons, List.map_cons] at heq
    exact h2 (List.head_eq_of_cons_eq heq)
  · intro heq
    rw [List.take_succ_cons, List.map_cons] at heq
    exact h1 (List.head_eq_of_cons_eq heq)

lemma tryMatchAt_none_of_attr {cs : List Char} (h : attrLen cs = none) :
    tryMatchAt cs = none := by
  unfold tryMatchAt
  rw [h]

lemma tryMatchAt_cons_fail {c : Char} {cs : List Char} (h1 : lc c ≠ 'h') (h2 : lc c ≠ 's') :
    tryMatchAt (c :: cs) = none :=
  tryMatchAt_none_of_attr (attrLen_cons_none h1 h2)

lemma findSplitAux_some_facts {chunk : List Char} {j k : Nat}
    (h : findSplitAux chunk j = some k) :
    1 ≤ k ∧ k ≤ j ∧ validPath (chunk.take k) = true ∧ validQuery (chunk.drop k) = true := by
  induction j with
  | zero => simp [findSplitAux] at h
  | succ n ih =>
    unfold findSplitAux at h
    split at h
    case isTrue hv =>
      have hk : k = n + 1 := by injection h with h'; omega
      subst hk
      rcases (Bool.and_eq_true _ _).mp hv with ⟨hv1, hv2⟩
      exact ⟨by omega, le_refl _, hv1, hv2⟩
    case isFalse =>
      obtain ⟨a, b, c', d⟩ := ih h
      exact ⟨a, by omega, c', d⟩

lemma findSplit_some_facts {chunk : List Char} {k : Nat} (h : findSplit chunk = some k) :
    1 ≤ k ∧ k ≤ chunk.length ∧ validPath (chunk.take k) = true ∧
      validQuery (chunk.drop k) = true :=
  findSplitAux_some_facts h

lemma tryAfterQuote_decomp {chunk : List Char} (hc : ∀ c ∈ chunk, nonQuote c = true)
    {q2 : Char} (h2 : isQuote q2 = true) (attr : List Char) (q1 : Char) (rest : List Char) :
    tryAfterQuote attr q1 (chunk ++ q2 :: rest) =
      match findSplit chunk with
      | some k =>
        some ({ pre := attr ++ ['=', q1], path := chunk.take k, query := chunk.drop k,
                suf := [q2] }, attr.length + 2 + chunk.length + 1)
      | none => none := by
  unfold tryAfterQuote
  rw [takeWhile_append_stop hc (nonQuote_false_of_isQuote h2) rest,
    dropWhile_append_stop hc (nonQuote_false_of_isQuote h2) rest]
  simp [h2]

lemma tryMatchAt_decomp {attr : List Char} (hA : attrIs attr) {q1 : Char}
    (h1 : isQuote q1 = true) {chunk : List Char} (hc : ∀ c ∈ chunk, nonQuote c = true)
    {q2 : Char} (h2 : isQuote q2 = true) (rest : List Char) :
    tryMatchAt (attr ++ '=' :: q1 :: (chunk ++ q2 :: rest)) =
      match findSplit chunk with
      | some k =>
        some ({ pre := attr ++ ['=', q1], path := chunk.take k, query := chunk.drop k,
                suf := [q2] }, attr.length + 2 + chunk.length + 1)
      | none => none := by
  unfold tryMatchAt
  rw [attrLen_append hA]
  simp only []
  have htake : (attr ++ '=' :: q1 :: (chunk ++ q2 :: rest)).take attr.length = attr :=
    List.take_left _ _
  have hdrop : (attr ++ '=' :: q1 :: (chunk ++ q2 :: rest)).drop attr.length =
      '=' :: q1 :: (chunk ++ q2 :: rest) := List.drop_left _ _
  rw [htake, hdrop]
  show tryAfterAttr attr ('=' :: q1 :: (chunk ++ q2 :: rest)) = _
  simp only [tryAfterAttr]
  rw [if_pos]
  · exact tryAfterQuote_decomp hc h2 attr q1 rest
  · simp [h1]

lemma validPath_length {p : List Char} (h : validPath p = true) : 4 ≤ p.length := by
  unfold validPath at h
  rcases Bool.or_eq_true_iff.mp h with h' | h' <;>
    rcases (Bool.and_eq_true _ _).mp h' with ⟨hl, _⟩ <;>
    · have := of_decide_eq_true hl
      omega

lemma tryAfterQuote_inv {attr : List Char} {q1 : Char} {r2 : List Char} {m : LinkMatch}
    {n : Nat} (h : tryAfterQuote attr q1 r2 = some (m, n)) :
    ∃ q2 t2 k, isQuote q2 = true ∧ r2 = r2.takeWhile nonQuote ++ q2 :: t2 ∧
      findSplit (r2.takeWhile nonQuote) = some k ∧
      m = { pre := attr ++ ['=', q1], path := (r2.takeWhile nonQuote).take k,
            query := (r2.takeWhile nonQuote).drop k, suf := [q2] } ∧
      n = attr.length + 2 + (r2.takeWhile nonQuote).length + 1 := by
  unfold tryAfterQuote at h
  split at h
  next hdw => exact absurd h (by simp)
  next q2 t2 hdw =>
    split at h
    next hq2 =>
      split at h
      next k hfs =>
        injection h with h'
        injection h' with hm hn
        refine ⟨q2, t2, k, hq2, ?_, hfs, hm.symm, hn.symm⟩
        conv_lhs => rw [← List.takeWhile_append_dropWhile nonQuote r2]
        rw [hdw]
      next hfs => exact absurd h (by simp)
    next hq2 => exact absurd h (by simp)

lemma tryAfterAttr_inv {attr rest : List Char} {m : LinkMatch} {n : Nat}
    (h : tryAfterAttr attr rest = some (m, n)) :
    ∃ q1 r2, rest = '=' :: q1 :: r2 ∧ isQuote q1 = true ∧
      tryAfterQuote attr q1 r2 = some (m, n) := by
  unfold tryAfterAttr at h
  split at h
  next e q1 r2 =>
    split at h
    next hcond =>
      rcases (Bool.and_eq_true _ _).mp hcond with ⟨he, hq1⟩
      have he' : e = '=' := of_decide_eq_true he
      subst he'
      exact ⟨q1, r2, rfl, hq1, h⟩
    next => exact absurd h (by simp)
  next => exact absurd h (by simp)

lemma tryMatchAt_some_inv {cs : List Char} {m : LinkMatch} {n : Nat}
    (h : tryMatchAt cs = some (m, n)) :
    ∃ attr q1 chunk q2 rest k,
      attrIs attr ∧ isQuote q1 = true ∧ (∀ c ∈ chunk, nonQuote c = true) ∧
      isQuote q2 = true ∧ cs = attr ++ '=' :: q1 :: (chunk ++ q2 :: rest) ∧
      findSplit chunk = some k ∧ m.pre = attr ++ ['=', q1] ∧ m.path = chunk.take k ∧
      m.query = chunk.drop k ∧ m.suf = [q2] ∧ n = attr.length + 2 + chunk.length + 1 := by
  unfold tryMatchAt at h
  cases ha : attrLen cs with
  | none => rw [ha] at h; exact absurd h (by simp)
  | some a =>
    rw [ha] at h
    simp only [] at h
    obtain ⟨hAI, hAlen⟩ := attrLen_some_inv ha
    obtain ⟨q1, r2, hrest, hq1, hq⟩ := tryAfterAttr_inv h
    obtain ⟨q2, t2, k, hq2, hr2, hfs, hm, hn⟩ := tryAfterQuote_inv hq
    refine ⟨cs.take a, q1, r2.takeWhile nonQuote, q2, t2, k, hAI, hq1,
      (fun c hc => List.mem_takeWhile_imp hc), hq2, ?_, hfs, ?_, ?_, ?_, ?_, ?_⟩
    · calc cs = cs.take a ++ cs.drop a := (List.take_append_drop a cs).symm
        _ = cs.take a ++ '=' :: q1 :: (r2.takeWhile nonQuote ++ q2 :: t2) := by
            rw [hrest, ← hr2]
    · rw [hm]
    · rw [hm]
    · rw [hm]
    · rw [hm]
    · rw [hn, hAlen]

lemma tryMatchAt_some_len {cs : List Char} {m : LinkMatch} {n : Nat}
    (h : tryMatchAt cs = some (m, n)) :
    10 ≤ n ∧ n ≤ cs.length ∧ m.group0 = cs.take n := by
  obtain ⟨attr, q1, chunk, q2, rest, k, hAI, hq1, hchunk, hq2, hcs, hfs, hpre, hpath, hquery,
    hsuf, hn⟩ := tryMatchAt_some_inv h
  obtain ⟨hk1, hk2, hvp, hvq⟩ := findSplit_some_facts hfs
  have hk4 : 4 ≤ k := by
    have := validPath_length hvp
    rw [List.length_take] at this
    omega
  have hattr : attr.length = 4 ∨ attr.length = 3 := attrIs_length hAI
  have hcl : 4 ≤ chunk.length := by omega
  refine ⟨by omega, ?_, ?_⟩
  · rw [hcs]
    simp only [List.length_append, List.length_cons]
    omega
  · have hn' : n = attr.length + (chunk.length + 3) := by omega
    rw [hcs, hn', List.take_append]
    have h3 : chunk.length + 3 = (chunk.length + 2) + 1 := by omega
    have h2 : chunk.length + 2 = (chunk.length + 1) + 1 := by omega
    rw [h3, List.take_succ_cons, h2, List.take_succ_cons]
    have h1 : chunk.length + 1 = chunk.length + 1 := rfl
    rw [List.take_append 1]
    unfold LinkMatch.group0
    rw [hpre, hpath, hquery, hsuf]
    simp [List.take_append_drop]

/-! ### Unfolding equations for the substitution pass -/

lemma subFuel_ext (env : Env) (d : String) (ver : Option String) :
    ∀ f g cs, cs.length ≤ f → cs.length ≤ g →
      subFuel env d ver f cs = subFuel env d ver g cs := by
  intro f
  induction f with
  | zero =>
    intro g cs h1 _
    have hcs : cs = [] := List.eq_nil_of_length_eq_zero (by omega)
    subst hcs
    cases g <;> simp [subFuel]
  | succ f ih =>
    intro g cs h1 h2
    cases cs with
    | nil => cases g <;> simp [subFuel]
    | cons c rest =>
      cases g with
      | zero => simp at h2
      | succ g' =>
        simp only [subFuel]
        cases hm : tryMatchAt (c :: rest) with
        | none =>
          simp only []
          rw [ih g' rest (by simp at h1; omega) (by simp at h2; omega)]
        | some mn =>
          rcases mn with ⟨m, n⟩
          simp only []
          rw [ih g' (rest.drop (n - 1)) (by simp [List.length_drop] at h1 ⊢; omega)
            (by simp [List.length_drop] at h2 ⊢; omega)]

lemma cssJsSub_cons_some {env : Env} {d : String} {ver : Option String} {c : Char}
    {rest : List Char} {m : LinkMatch} {n : Nat} (h : tryMatchAt (c :: rest) = some (m, n)) :
    cssJsSub env d ver (c :: rest) =
      replaceMatch env d ver m ++ cssJsSub env d ver (rest.drop (n - 1)) := by
  show subFuel env d ver (rest.length + 1) (c :: rest) = _
  simp only [subFuel, h]
  rw [subFuel_ext env d ver rest.length (rest.drop (n - 1)).length (rest.drop (n - 1))
    (by simp [List.length_drop]) (le_refl _)]
  rfl

lemma cssJsSub_cons_none {env : Env} {d : String} {ver : Option String} {c : Char}
    {rest : List Char} (h : tryMatchAt (c :: rest) = none) :
    cssJsSub env d ver (c :: rest) = c :: cssJsSub env d ver rest := by
  show subFuel env d ver (rest.length + 1) (c :: rest) = _
  simp only [subFuel, h]
  rfl

lemma cssJsSub_append_nomatch (env : Env) (d : String) (ver : Option String) {w : List Char}
    (zs : List Char) (h : ∀ i < w.length, tryMatchAt (w.drop i ++ zs) = none) :
    cssJsSub env d ver (w ++ zs) = w ++ cssJsSub env d ver zs := by
  induction w with
  | nil => simp
  | cons c t ih =>
    have h0 := h 0 (by simp)
    rw [List.drop_zero, List.cons_append] at h0
    rw [List.cons_append, cssJsSub_cons_none h0]
    rw [ih (fun i hi => by
      have := h (i + 1) (by simp; omega)
      simpa using this)]
    simp

lemma tryMatchAt_none_of_noquote {cs : List Char} (h : ∀ c ∈ cs, nonQuote c = true) :
    tryMatchAt cs = none := by
  cases hm : tryMatchAt cs with
  | none => rfl
  | some mn =>
    rcases mn with ⟨m, n⟩
    obtain ⟨attr, q1, chunk, q2, rest, k, hAI, hq1, _, _, hcs, _⟩ := tryMatchAt_some_inv hm
    have hmem : q1 ∈ cs := by rw [hcs]; simp
    have := h q1 hmem
    rw [nonQuote, hq1] at this
    simp at this

lemma cssJsSub_id_of_noquote (env : Env) (d : String) (ver : Option String) {cs : List Char}
    (h : ∀ c ∈ cs, nonQuote c = true) : cssJsSub env d ver cs = cs := by
  induction cs with
  | nil => rfl
  | cons c t ih =>
    rw [cssJsSub_cons_none (tryMatchAt_none_of_noquote h)]
    rw [ih (fun x hx => h x (by simp [hx]))]

lemma replaceMatch_cases (env : Env) (d : String) (ver : Option String) (m : LinkMatch) :
    replaceMatch env d ver m = m.group0 ∨
    ∃ tgt, env.pathExists tgt = true ∧
      replaceMatch env d ver m =
        m.pre ++ m.path.takeWhile (fun c => decide (c ≠ '?')) ++
          ('?' :: 'v' :: '=' :: (pickVersion env ver tgt).data) ++ m.suf := by
  unfold replaceMatch
  by_cases h1 : (strStarts (String.mk m.path) "http://" ||
      strStarts (String.mk m.path) "https://" || strStarts (String.mk m.path) "//") = true
  · left
    simp [h1]
  · rw [Bool.not_eq_true] at h1
    by_cases h2 : env.pathExists (resolvePath (pjoin d (String.mk m.path))) = true
    · right
      exact ⟨resolvePath (pjoin d (String.mk m.path)), h2, by simp [h1, h2]⟩
    · rw [Bool.not_eq_true] at h2
      by_cases h3 : env.pathExists (resolvePath (pjoin (publicDir env) (String.mk m.path))) = true
      · right
        exact ⟨resolvePath (pjoin (publicDir env) (String.mk m.path)), h3, by simp [h1, h2, h3]⟩
      · rw [Bool.not_eq_true] at h3
        left
        simp [h1, h2, h3]

lemma replaceMatch_eq_pre_append (env : Env) (d : String) (ver : Option String)
    (m : LinkMatch) : ∃ t, replaceMatch env d ver m = m.pre ++ t := by
  rcases replaceMatch_cases env d ver m with h | ⟨tgt, _, h⟩
  · exact ⟨m.path ++ m.query ++ m.suf, by rw [h]; simp [LinkMatch.group0]⟩
  · exact ⟨m.path.takeWhile (fun c => decide (c ≠ '?')) ++
      ('?' :: 'v' :: '=' :: (pickVersion env ver tgt).data) ++ m.suf, by rw [h]; simp⟩

lemma attr_nonquote {attr : List Char} (h : attrIs attr) : ∀ x ∈ attr, nonQuote x = true := by
  intro x hx
  by_contra hnq
  have hq : isQuote x = true := by
    cases hxq : isQuote x
    · exact absurd (by simp [nonQuote, hxq]) hnq
    · rfl
  have hlx : lc x = x := lc_quote hq
  have hmem : lc x ∈ attr.map lc := List.mem_map_of_mem lc hx
  have hx2 : x = '"' ∨ x = '\'' := by
    unfold isQuote at hq
    rcases Bool.or_eq_true_iff.mp hq with h' | h'
    · exact Or.inl (of_decide_eq_true h')
    · exact Or.inr (of_decide_eq_true h')
  rcases h with h | h <;> rw [h, hlx] at hmem <;> rcases hx2 with rfl | rfl <;> simp at hmem

lemma cssJsSub_first_quote (env : Env) (d : String) (ver : Option String) {w : List Char}
    (hw : ∀ c ∈ w, nonQuote c = true) {q : Char} (hq : isQuote q = true) (U : List Char) :
    ∃ U2, cssJsSub env d ver (w ++ q :: U) = w ++ q :: U2 := by
  induction w with
  | nil =>
    refine ⟨cssJsSub env d ver U, ?_⟩
    rw [List.nil_append,
      cssJsSub_cons_none (tryMatchAt_cons_fail (quote_ne_h hq).1 (quote_ne_h hq).2)]
    rfl
  | cons c t ih =>
    cases hm : tryMatchAt (c :: (t ++ q :: U)) with
    | none =>
      obtain ⟨U2, hU2⟩ := ih (fun x hx => hw x (by simp [hx]))
      refine ⟨U2, ?_⟩
      rw [List.cons_append, cssJsSub_cons_none hm, hU2, List.cons_append]
    | some mn =>
      rcases mn with ⟨m, n⟩
      obtain ⟨attr, q1, chunk, q2, rest, k, hAI, hq1, hchunk, hq2, hcs, hfs, hpre, hpath,
        hquery, hsuf, hn⟩ := tryMatchAt_some_inv hm
      have hAE : ∀ x ∈ attr ++ ['='], nonQuote x = true := by
        intro x hx
        rcases List.mem_append.mp hx with hx | hx
        · exact attr_nonquote hAI x hx
        · simp at hx
          subst hx
          decide
      have h1 : ((c :: t) ++ q :: U).takeWhile nonQuote = c :: t :=
        takeWhile_append_stop hw (nonQuote_false_of_isQuote hq) U
      have hcs' : (c :: t) ++ q :: U = (attr ++ ['=']) ++ q1 :: (chunk ++ q2 :: rest) := by
        simp only [List.cons_append, List.append_assoc, List.singleton_append]
        exact hcs
      have h2 : ((attr ++ ['=']) ++ q1 :: (chunk ++ q2 :: rest)).takeWhile nonQuote =
          attr ++ ['='] :=
        takeWhile_append_stop hAE (nonQuote_false_of_isQuote hq1) _
      have hpre_eq : c :: t = attr ++ ['='] := by
        rw [hcs'] at h1
        exact h1.symm.trans h2
      have htail : q :: U = q1 :: (chunk ++ q2 :: rest) := by
        have h3 := hcs'
        rw [hpre_eq] at h3
        exact List.append_cancel_left h3
      have hqq : q = q1 := by injection htail
      obtain ⟨t2, ht2⟩ := replaceMatch_eq_pre_append env d ver m
      refine ⟨t2 ++ cssJsSub env d ver ((t ++ q :: U).drop (n - 1)), ?_⟩
      rw [List.cons_append, cssJsSub_cons_some hm, ht2, hpre]
      have hps : attr ++ ['=', q1] = (c :: t) ++ [q] := by
        rw [hpre_eq, hqq]
        simp
      rw [hps]
      simp

lemma clean_head_take1 {path : List Char} (hne : path ≠ []) (z : List Char) :
    (path.takeWhile (fun c => decide (c ≠ '?')) ++ '?' :: z).take 1 = path.take 1 := by
  cases path with
  | nil => exact absurd rfl hne
  | cons p0 pt =>
    by_cases hp : p0 = '?'
    · subst hp
      simp [List.takeWhile_cons]
    · simp [List.takeWhile_cons, hp]

lemma cssJsSub_take_le6 (env : Env) (d : String) (ver : Option String) :
    ∀ cs, ∀ j ≤ 6, (cssJsSub env d ver cs).take j = cs.take j := by
  intro cs
  induction cs with
  | nil => intro j _; rfl
  | cons c t ih =>
    intro j hj
    cases hm : tryMatchAt (c :: t) with
    | none =>
      rw [cssJsSub_cons_none hm]
      cases j with
      | zero => simp
      | succ j' => rw [List.take_succ_cons, List.take_succ_cons, ih j' (by omega)]
    | some mn =>
      rcases mn with ⟨m, n⟩
      rw [cssJsSub_cons_some hm]
      rcases replaceMatch_cases env d ver m with hR | ⟨tgt, _, hR⟩
      · obtain ⟨h10, hle, hg0⟩ := tryMatchAt_some_len hm
        rw [hR, hg0]
        rw [List.take_append_of_le_length (by rw [List.length_take]; omega)]
        rw [List.take_take]
        congr 1
        omega
      · obtain ⟨attr, q1, chunk, q2, rest, k, hAI, hq1, hchunk, hq2, hcs, hfs, hpre, hpath,
          hquery, hsuf, hn⟩ := tryMatchAt_some_inv hm
        obtain ⟨hk1, hk2, hvp, hvq⟩ := findSplit_some_facts hfs
        have hk4 : 4 ≤ k := by
          have := validPath_length hvp
          rw [List.length_take] at this
          omega
        have hch4 : 4 ≤ chunk.length := le_trans hk4 hk2
        rw [hR, hpre, hpath, hsuf]
        have hcs2 : c :: t = (attr ++ ['=', q1]) ++ (chunk ++ q2 :: rest) := by
          rw [hcs]
          simp
        rw [hcs2]
        have hassoc1 : (attr ++ ['=', q1]) ++ (chunk.take k).takeWhile
              (fun c => decide (c ≠ '?')) ++ ('?' :: 'v' :: '=' ::
              (pickVersion env ver tgt).data) ++ [q2] =
            (attr ++ ['=', q1]) ++ ((chunk.take k).takeWhile (fun c => decide (c ≠ '?')) ++
              '?' :: ('v' :: '=' :: ((pickVersion env ver tgt).data ++ [q2]))) := by
          simp
        rw [hassoc1]
        have hMID : 4 ≤ ((chunk.take k).takeWhile (fun c => decide (c ≠ '?')) ++
            '?' :: ('v' :: '=' :: ((pickVersion env ver tgt).data ++ [q2]))).length := by
          simp only [List.length_append, List.length_cons]
          omega
        have hbig : ∀ jj : Nat, jj ≤ 7 → jj ≤ (attr ++ ['=', q1] ++
            ((chunk.take k).takeWhile (fun c => decide (c ≠ '?')) ++
              '?' :: ('v' :: '=' :: ((pickVersion env ver tgt).data ++ [q2])))).length := by
          intro jj hjj
          simp only [List.length_append, List.length_cons, List.length_nil]
          rcases attrIs_length hAI with h | h <;> omega
        rcases attrIs_length hAI with h4 | h3
        · have hjp : j ≤ (attr ++ ['=', q1]).length := by
            simp only [List.length_append, List.length_cons, List.length_nil]
            omega
          rw [List.take_append_of_le_length (hbig j (by omega)),
            List.take_append_of_le_length hjp, List.take_append_of_le_length hjp]
        · rcases Nat.lt_or_ge j 6 with hj5 | hj6
          · have hjp : j ≤ (attr ++ ['=', q1]).length := by
              simp only [List.length_append, List.length_cons, List.length_nil]
              omega
            rw [List.take_append_of_le_length (hbig j (by omega)),
              List.take_append_of_le_length hjp, List.take_append_of_le_length hjp]
          · have hj' : j = 6 := by omega
            subst hj'
            have h6 : (6 : Nat) = (attr ++ ['=', q1]).length + 1 := by
              simp only [List.length_append, List.length_cons, List.length_nil]
              omega
            have hbig6 : (attr ++ ['=', q1]).length + 1 ≤ (attr ++ ['=', q1] ++
                ((chunk.take k).takeWhile (fun c => decide (c ≠ '?')) ++
                  '?' :: ('v' :: '=' :: ((pickVersion env ver tgt).data ++ [q2])))).length := by
              have := hbig 6 (by omega)
              omega
            rw [h6, List.take_append_of_le_length hbig6, List.take_append, List.take_append]
            congr 1
            rw [clean_head_take1 (by
                intro hz
                have := congrArg List.length hz
                rw [List.length_take] at this
                simp only [List.length_nil] at this
                omega) _]
            have hch1 : (1 : Nat) ≤ chunk.length := by omega
            rw [List.take_take, List.take_append_of_le_length hch1]
            congr 1
            omega

lemma attrEq_nonquote {attr : List Char} (hAI : attrIs attr) :
    ∀ x ∈ attr ++ ['='], nonQuote x = true := by
  intro x hx
  rcases List.mem_append.mp hx with hx | hx
  · exact attr_nonquote hAI x hx
  · simp at hx
    subst hx
    decide

lemma endsAttrEq_of_attr_eq {x attr : List Char} (hAI : attrIs attr)
    (hx : x = attr ++ ['=']) : endsAttrEq x = true := by
  subst hx
  have he : lc '=' = '=' := by decide
  rcases hAI with h | h <;>
    · unfold endsAttrEq
      rw [List.map_append, h]
      simp [he]

lemma tryMatchAt_none_inside {x : List Char} (hx : ∀ c ∈ x, nonQuote c = true)
    (hae : endsAttrEq x = false) {q : Char} (hq : isQuote q = true) (zs : List Char) :
    tryMatchAt (x ++ q :: zs) = none := by
  cases hm : tryMatchAt (x ++ q :: zs) with
  | none => rfl
  | some mn =>
    rcases mn with ⟨m, n⟩
    exfalso
    obtain ⟨attr, q1, chunk, q2, rest, k, hAI, hq1, hchunk, hq2, hcs, _⟩ :=
      tryMatchAt_some_inv hm
    have h1 : (x ++ q :: zs).takeWhile nonQuote = x :=
      takeWhile_append_stop hx (nonQuote_false_of_isQuote hq) zs
    have hcs' : x ++ q :: zs = (attr ++ ['=']) ++ q1 :: (chunk ++ q2 :: rest) := by
      simp only [List.append_assoc, List.singleton_append]
      exact hcs
    have h2 : ((attr ++ ['=']) ++ q1 :: (chunk ++ q2 :: rest)).takeWhile nonQuote =
        attr ++ ['='] :=
      takeWhile_append_stop (attrEq_nonquote hAI) (nonQuote_false_of_isQuote hq1) _
    have hxa : x = attr ++ ['='] := by
      rw [hcs'] at h1
      exact h1.symm.trans h2
    rw [endsAttrEq_of_attr_eq hAI hxa] at hae
    simp at hae

lemma take_of_take_eq {R : List Char} {m p : Nat} {pat : List Char}
    (h : (R.take m).take p = pat) (hlen : pat.length = p) : R.take p = pat := by
  rw [List.take_take] at h
  have hl := congrArg List.length h
  rw [List.length_take, hlen] at hl
  have hmin : p ⊓ m = p := by omega
  rw [hmin] at h
  exact h

lemma endsAttrEq_suffix {x : List Char} (i : Nat) (h : endsAttrEq (x.drop i) = true) :
    endsAttrEq x = true := by
  unfold endsAttrEq at h ⊢
  rcases Bool.or_eq_true_iff.mp h with h' | h'
  · have h5 := of_decide_eq_true h'
    rw [List.map_drop, List.reverse_drop] at h5
    have h6 := take_of_take_eq h5 (by rfl)
    apply Bool.or_eq_true_iff.mpr
    left
    exact decide_eq_true h6
  · have h4 := of_decide_eq_true h'
    rw [List.map_drop, List.reverse_drop] at h4
    have h6 := take_of_take_eq h4 (by rfl)
    apply Bool.or_eq_true_iff.mpr
    right
    exact decide_eq_true h6

lemma dropWhile_nil_all {p : Char → Bool} {l : List Char} (h : l.dropWhile p = []) :
    ∀ x ∈ l, p x = true := by
  induction l with
  | nil => intro x hx; simp at hx
  | cons a t ih =>
    rw [List.dropWhile_cons] at h
    by_cases hpa : p a = true
    · rw [if_pos hpa] at h
      intro x hx
      rcases List.mem_cons.mp hx with rfl | hx
      · exact hpa
      · exact ih h x hx
    · rw [if_neg hpa] at h
      simp at h

lemma dropWhile_head_false {p : Char → Bool} {l : List Char} {y : Char} {ys : List Char}
    (h : l.dropWhile p = y :: ys) : p y = false := by
  induction l with
  | nil => simp [List.dropWhile] at h
  | cons a t ih =>
    rw [List.dropWhile_cons] at h
    by_cases hpa : p a = true
    · rw [if_pos hpa] at h
      exact ih h
    · rw [if_neg hpa] at h
      injection h with h1 _
      subst h1
      cases hpb : p a with
      | false => rfl
      | true => exact absurd hpb hpa

lemma tryMatchAt_short {xs : List Char} (h : xs.length < 10) : tryMatchAt xs = none := by
  cases hm : tryMatchAt xs with
  | none => rfl
  | some mn =>
    rcases mn with ⟨m, n⟩
    obtain ⟨h10, hle, _⟩ := tryMatchAt_some_len hm
    omega

lemma tryAfterQuote_none_preserve (env : Env) (d : String) (ver : Option String)
    (attr attr' : List Char) (q1 : Char) {r2 : List Char}
    (h : tryAfterQuote attr q1 r2 = none) :
    tryAfterQuote attr' q1 (cssJsSub env d ver r2) = none := by
  cases hdw : r2.dropWhile nonQuote with
  | nil =>
    have hall : ∀ x ∈ r2, nonQuote x = true := dropWhile_nil_all hdw
    rw [cssJsSub_id_of_noquote env d ver hall]
    unfold tryAfterQuote
    rw [hdw]
  | cons q2 U =>
    have hq2 : isQuote q2 = true := isQuote_of_nonQuote_false (dropWhile_head_false hdw)
    unfold tryAfterQuote at h
    rw [hdw] at h
    simp only [] at h
    rw [if_pos hq2] at h
    have hfs : findSplit (r2.takeWhile nonQuote) = none := by
      cases hfs' : findSplit (r2.takeWhile nonQuote) with
      | none => rfl
      | some k => rw [hfs'] at h; exact absurd h (by simp)
    have hr2 : r2 = r2.takeWhile nonQuote ++ q2 :: U := by
      conv_lhs => rw [← List.takeWhile_append_dropWhile nonQuote r2]
      rw [hdw]
    have hwq : ∀ x ∈ r2.takeWhile nonQuote, nonQuote x = true :=
      fun x hx => List.mem_takeWhile_imp hx
    obtain ⟨U', hU'⟩ := cssJsSub_first_quote env d ver hwq hq2 U
    rw [hr2, hU']
    rw [tryAfterQuote_decomp hwq hq2 attr' q1 U', hfs]

lemma cssJsSub_short_id (env : Env) (d : String) (ver : Option String) :
    ∀ {xs : List Char}, xs.length < 10 → cssJsSub env d ver xs = xs := by
  intro xs
  induction xs with
  | nil => intro _; rfl
  | cons c t ih =>
    intro hl
    rw [cssJsSub_cons_none (tryMatchAt_short hl)]
    rw [ih (by simp at hl; omega)]

lemma attrLen_congr {xs ys : List Char} (h : xs.take 4 = ys.take 4) :
    attrLen xs = attrLen ys := by
  have h3 : xs.take 3 = ys.take 3 := by
    have h' := congrArg (List.take 3) h
    rw [List.take_take, List.take_take] at h'
    simpa using h'
  unfold attrLen
  rw [h, h3]

lemma attr_tail_fail {attr : List Char} (hAI : attrIs attr) :
    ∀ x ∈ attr.drop 1, lc x ≠ 'h' ∧ lc x ≠ 's' := by
  intro x hx
  have hmem : lc x ∈ (attr.drop 1).map lc := List.mem_map_of_mem lc hx
  rw [List.map_drop] at hmem
  rcases hAI with h | h <;> rw [h] at hmem <;>
    exact ⟨by intro hc; rw [hc] at hmem; simp at hmem,
      by intro hc; rw [hc] at hmem; simp at hmem⟩

lemma tryMatchAt_attr_step {attr : List Char} (hAI : attrIs attr) (D : List Char) :
    tryMatchAt (attr ++ D) = tryAfterAttr attr D := by
  unfold tryMatchAt
  rw [attrLen_append hAI]
  simp only []
  rw [List.take_left, List.drop_left]

lemma tryAfterAttr_quote_step {attr : List Char} {q1 : Char} (hq1 : isQuote q1 = true)
    (R : List Char) : tryAfterAttr attr ('=' :: q1 :: R) = tryAfterQuote attr q1 R := by
  unfold tryAfterAttr
  simp [hq1]

lemma tryAfterAttr_none_preserve (env : Env) (d : String) (ver : Option String)
    {attr attr' t3 : List Char} (h : tryAfterAttr attr t3 = none) :
    tryAfterAttr attr' (cssJsSub env d ver t3) = none := by
  rcases t3 with _ | ⟨e, t4⟩
  · rfl
  · rcases t4 with _ | ⟨q1, r2⟩
    · rw [cssJsSub_short_id env d ver (by simp)]
      rfl
    · by_cases he : e = '='
      · subst he
        by_cases hq1 : isQuote q1 = true
        · have s1 : tryMatchAt ('=' :: q1 :: r2) = none :=
            tryMatchAt_cons_fail (by decide) (by decide)
          have s2 : tryMatchAt (q1 :: r2) = none :=
            tryMatchAt_cons_fail (quote_ne_h hq1).1 (quote_ne_h hq1).2
          rw [cssJsSub_cons_none s1, cssJsSub_cons_none s2]
          rw [tryAfterAttr_quote_step hq1] at h ⊢
          exact tryAfterQuote_none_preserve env d ver attr attr' q1 h
        · have h2t := cssJsSub_take_le6 env d ver ('=' :: q1 :: r2) 2 (by omega)
          cases hsub : cssJsSub env d ver ('=' :: q1 :: r2) with
          | nil => rw [hsub] at h2t; simp at h2t
          | cons d0 w =>
            cases w with
            | nil => rw [hsub] at h2t; simp at h2t
            | cons d1 w2 =>
              rw [hsub] at h2t
              simp at h2t
              obtain ⟨hd0, hd1⟩ := h2t
              subst hd0
              subst hd1
              unfold tryAfterAttr
              simp [hq1]
      · have h1t := cssJsSub_take_le6 env d ver (e :: q1 :: r2) 1 (by omega)
        cases hsub : cssJsSub env d ver (e :: q1 :: r2) with
        | nil => rw [hsub] at h1t; simp at h1t
        | cons d0 w =>
          rw [hsub] at h1t
          simp at h1t
          subst h1t
          cases w with
          | nil => rfl
          | cons w0 w1 =>
            unfold tryAfterAttr
            simp [he]

lemma tryMatchAt_none_preserve (env : Env) (d : String) (ver : Option String) {c : Char}
    {t : List Char} (h : tryMatchAt (c :: t) = none) :
    tryMatchAt (c :: cssJsSub env d ver t) = none := by
  by_cases hshort : t.length < 9
  · rw [cssJsSub_short_id env d ver (by omega)]
    exact h
  · push_neg at hshort
    cases haL : attrLen (c :: t) with
    | none =>
      apply tryMatchAt_none_of_attr
      have h4t : (c :: cssJsSub env d ver t).take 4 = (c :: t).take 4 := by
        rw [List.take_succ_cons, List.take_succ_cons,
          cssJsSub_take_le6 env d ver t 3 (by omega)]
      rw [attrLen_congr h4t, haL]
    | some a =>
      obtain ⟨hAI, hAlen⟩ := attrLen_some_inv haL
      have ha4 : a = 4 ∨ a = 3 := by
        rcases attrIs_length hAI with hl | hl
        · left; omega
        · right; omega
      have hwalk : ∀ i < (t.take (a - 1)).length,
          tryMatchAt ((t.take (a - 1)).drop i ++ t.drop (a - 1)) = none := by
        intro i hi
        cases hD : (t.take (a - 1)).drop i with
        | nil =>
          have hc := congrArg List.length hD
          rw [List.length_drop] at hc
          simp only [List.length_nil] at hc
          omega
        | cons x w =>
          have hxmem : x ∈ t.take (a - 1) := by
            have hx : x ∈ (t.take (a - 1)).drop i := by rw [hD]; simp
            exact List.mem_of_mem_drop hx
          have hxattr : x ∈ ((c :: t).take a).drop 1 := by
            have htpre : ((c :: t).take a).drop 1 = t.take (a - 1) := by
              rcases ha4 with rfl | rfl <;> rfl
            rw [htpre]
            exact hxmem
          obtain ⟨hh, hs⟩ := attr_tail_fail hAI x hxattr
          exact tryMatchAt_cons_fail hh hs
      have hsubt : cssJsSub env d ver t =
          t.take (a - 1) ++ cssJsSub env d ver (t.drop (a - 1)) := by
        conv_lhs => rw [← List.take_append_drop (a - 1) t]
        exact cssJsSub_append_nomatch env d ver _ hwalk
      have hlen_tpre : (t.take (a - 1)).length = a - 1 := by
        rw [List.length_take]
        rcases ha4 with rfl | rfl <;> omega
      unfold tryMatchAt at h ⊢
      rw [haL] at h
      have h4t : (c :: cssJsSub env d ver t).take 4 = (c :: t).take 4 := by
        rw [List.take_succ_cons, List.take_succ_cons,
          cssJsSub_take_le6 env d ver t 3 (by omega)]
      rw [attrLen_congr h4t, haL]
      simp only [] at h ⊢
      have hdrop_old : (c :: t).drop a = t.drop (a - 1) := by
        rcases ha4 with rfl | rfl <;> rfl
      have hdrop_new : (c :: cssJsSub env d ver t).drop a =
          cssJsSub env d ver (t.drop (a - 1)) := by
        rw [hsubt]
        rcases ha4 with rfl | rfl
        · show (t.take 3 ++ cssJsSub env d ver (t.drop 3)).drop 3 = _
          exact List.drop_left' (by simpa using hlen_tpre)
        · show (t.take 2 ++ cssJsSub env d ver (t.drop 2)).drop 2 = _
          exact List.drop_left' (by simpa using hlen_tpre)
      rw [hdrop_old] at h
      rw [hdrop_new]
      exact tryAfterAttr_none_preserve env d ver h

lemma cssJsSub_match_block (env : Env) (d : String) (ver : Option String) {attr : List Char}
    {q1 : Char} {chunk : List Char} {q2 : Char} {k : Nat} (zs : List Char) (hAI : attrIs attr)
    (h1 : isQuote q1 = true) (hc : ∀ c ∈ chunk, nonQuote c = true) (h2 : isQuote q2 = true)
    (hfs : findSplit chunk = some k) :
    cssJsSub env d ver (attr ++ '=' :: q1 :: (chunk ++ q2 :: zs)) =
      replaceMatch env d ver
        { pre := attr ++ ['=', q1], path := chunk.take k, query := chunk.drop k, suf := [q2] } ++
        cssJsSub env d ver zs := by
  have hdec := tryMatchAt_decomp hAI h1 hc h2 zs
  rw [hfs] at hdec
  simp only [] at hdec
  rcases attr with _ | ⟨c0, attrT⟩
  · rcases hAI with h | h <;> simp at h
  · rw [List.cons_append] at hdec ⊢
    rw [cssJsSub_cons_some hdec]
    have hlen : ((c0 :: attrT) ++ '=' :: q1 :: (chunk ++ [q2])).length =
        (c0 :: attrT).length + 2 + chunk.length + 1 := by
      simp only [List.length_append, List.length_cons, List.length_nil]
      omega
    have hdropn : ((c0 :: attrT) ++ '=' :: q1 :: (chunk ++ q2 :: zs)).drop
        ((c0 :: attrT).length + 2 + chunk.length + 1) = zs := by
      have hsplit : (c0 :: attrT) ++ '=' :: q1 :: (chunk ++ q2 :: zs) =
          ((c0 :: attrT) ++ '=' :: q1 :: (chunk ++ [q2])) ++ zs := by
        simp
      rw [hsplit]
      exact List.drop_left' hlen
    have hstep : (attrT ++ '=' :: q1 :: (chunk ++ q2 :: zs)).drop
        ((c0 :: attrT).length + 2 + chunk.length + 1 - 1) = zs := by
      rw [List.cons_append, List.drop_succ_cons] at hdropn
      have h2' : (c0 :: attrT).length + 2 + chunk.length + 1 - 1 =
          (c0 :: attrT).length + 2 + chunk.length := by
        omega
      rw [h2']
      exact hdropn
    rw [hstep]

lemma endsAttrEq_mid_rev {clean vd : List Char} :
    ((clean ++ '?' :: 'v' :: '=' :: vd).map lc).reverse =
      (vd.map lc).reverse ++ ['=', 'v', '?'] ++ (clean.map lc).reverse := by
  have l1 : lc '?' = '?' := by decide
  have l2 : lc 'v' = 'v' := by decide
  have l3 : lc '=' = '=' := by decide
  rw [List.map_append]
  simp [l1, l2, l3]

lemma endsAttrEq_mid_false {clean vd : List Char} (hvd : vd ≠ [])
    (hae : endsAttrEq vd = false) :
    endsAttrEq (clean ++ '?' :: 'v' :: '=' :: vd) = false := by
  unfold endsAttrEq at hae ⊢
  rw [endsAttrEq_mid_rev]
  rcases Bool.or_eq_false_iff.mp hae with ⟨hae5, hae4⟩
  by_cases h5 : 5 ≤ vd.length
  · have hlen : 5 ≤ ((vd.map lc).reverse ++ ['=', 'v', '?']).length := by
      simp
      omega
    have hlen' : 5 ≤ (vd.map lc).reverse.length := by
      simp
      omega
    rw [List.append_assoc, ← List.append_assoc]
    rw [List.take_append_of_le_length hlen, List.take_append_of_le_length hlen',
      List.take_append_of_le_length (by simp at hlen ⊢; omega),
      List.take_append_of_le_length (by simp; omega)]
    rw [hae5, hae4]
    rfl
  · push_neg at h5
    rcases vd with _ | ⟨a, vd1⟩
    · exact absurd rfl hvd
    · rcases vd1 with _ | ⟨b, vd2⟩
      · simp
      · rcases vd2 with _ | ⟨c', vd3⟩
        · simp
        · rcases vd3 with _ | ⟨d', vd4⟩
          · simp
          · rcases vd4 with _ | ⟨e', vd5⟩
            · rw [Bool.or_eq_false_iff]
              constructor
              · apply decide_eq_false
                intro heq
                simp at heq
              · apply decide_eq_false
                intro heq
                simp at heq hae4
                tauto
            · simp at h5
              omega

lemma validQuery_cons_eq {c : Char} {l : List Char} (h : validQuery (c :: l) = true) :
    c = '?' := by
  unfold validQuery at h
  exact of_decide_eq_true h

lemma takeWhile_all {p : Char → Bool} {l : List Char} (h : ∀ x ∈ l, p x = true) :
    l.takeWhile p = l :=
  List.takeWhile_eq_self_iff.mpr h

lemma string_data_ne_nil {v : String} (hv : v ≠ "") : v.data ≠ [] := by
  intro hz
  apply hv
  cases v with
  | mk dat =>
    simp at hz
    subst hz
    rfl

lemma attr_eq_tail_fail {attr : List Char} (hAI : attrIs attr) {q1 : Char}
    (h1 : isQuote q1 = true) :
    ∀ x ∈ (attr ++ ['=', q1]).drop 1, lc x ≠ 'h' ∧ lc x ≠ 's' := by
  intro x hx
  rcases attr with _ | ⟨a0, aT⟩
  · rcases hAI with h | h <;> simp at h
  · rw [List.cons_append, List.drop_succ_cons, List.drop_zero] at hx
    rcases List.mem_append.mp hx with hx | hx
    · exact attr_tail_fail hAI x (by simpa using hx)
    · simp only [List.mem_cons, List.not_mem_nil, or_false] at hx
      rcases hx with rfl | rfl
      · exact ⟨by decide, by decide⟩
      · exact quote_ne_h h1

lemma cssJsSub_block (env : Env) (d : String) {v : String} (hv : v ≠ "")
    (hvq : ∀ c ∈ v.data, nonQuote c = true) (hva : endsAttrEq v.data = false)
    {attr : List Char} (hAI : attrIs attr) {q1 : Char} (h1 : isQuote q1 = true)
    {q2 : Char} (h2 : isQuote q2 = true) {clean : List Char}
    (hcq : ∀ c ∈ clean, nonQuote c = true) (hcnq : ∀ c ∈ clean, c ≠ '?')
    (zs : List Char) :
    cssJsSub env d (some v)
        (attr ++ '=' :: q1 :: ((clean ++ '?' :: 'v' :: '=' :: v.data) ++ q2 :: zs)) =
      (attr ++ '=' :: q1 :: ((clean ++ '?' :: 'v' :: '=' :: v.data) ++ [q2])) ++
        cssJsSub env d (some v) zs := by
  have hvd : v.data ≠ [] := string_data_ne_nil hv
  have hmq : ∀ c ∈ clean ++ '?' :: 'v' :: '=' :: v.data, nonQuote c = true := by
    intro c hc
    rcases List.mem_append.mp hc with h | h
    · exact hcq c h
    · simp only [List.mem_cons] at h
      rcases h with rfl | rfl | rfl | h
      · decide
      · decide
      · decide
      · exact hvq c h
  have hmae : endsAttrEq (clean ++ '?' :: 'v' :: '=' :: v.data) = false :=
    endsAttrEq_mid_false hvd hva
  cases hfs : findSplit (clean ++ '?' :: 'v' :: '=' :: v.data) with
  | some k =>
    rw [cssJsSub_match_block env d (some v) zs hAI h1 hmq h2 hfs]
    congr 1
    obtain ⟨hk1, hk2, hvp, hvq2⟩ := findSplit_some_facts hfs
    have hclk : clean.length ≤ k := by
      by_contra hlt
      push_neg at hlt
      have hdk : (clean ++ '?' :: 'v' :: '=' :: v.data).drop k =
          clean.drop k ++ '?' :: 'v' :: '=' :: v.data :=
        List.drop_append_of_le_length (by omega)
      rcases hcd : clean.drop k with _ | ⟨y, w⟩
      · have hl := congrArg List.length hcd
        rw [List.length_drop] at hl
        simp only [List.length_nil] at hl
        omega
      · rw [hdk, hcd, List.cons_append] at hvq2
        have hy : y = '?' := validQuery_cons_eq hvq2
        have hymem : y ∈ clean := List.mem_of_mem_drop (by rw [hcd]; simp)
        exact hcnq y hymem hy
    rcases replaceMatch_cases env d (some v)
        { pre := attr ++ ['=', q1], path := (clean ++ '?' :: 'v' :: '=' :: v.data).take k,
          query := (clean ++ '?' :: 'v' :: '=' :: v.data).drop k, suf := [q2] } with
      hrm | ⟨tgt, _, hrm⟩
    · rw [hrm]
      unfold LinkMatch.group0
      simp only []
      rw [List.append_assoc (attr ++ ['=', q1]), List.take_append_drop]
      simp
    · have hmtk : (clean ++ '?' :: 'v' :: '=' :: v.data).take k =
          clean ++ ('?' :: 'v' :: '=' :: v.data).take (k - clean.length) := by
        have hk' : k = clean.length + (k - clean.length) := by omega
        conv_lhs => rw [hk']
        exact List.take_append _
      have hclean2 : ((clean ++ '?' :: 'v' :: '=' :: v.data).take k).takeWhile
          (fun c => decide (c ≠ '?')) = clean := by
        rw [hmtk]
        rcases Nat.eq_or_lt_of_le hclk with heq | hlt
        · have hz : k - clean.length = 0 := by omega
          rw [hz]
          simp only [List.take_zero, List.append_nil]
          exact takeWhile_all (fun x hx => decide_eq_true (hcnq x hx))
        · have hs : k - clean.length = (k - clean.length - 1) + 1 := by omega
          rw [hs, List.take_succ_cons]
          exact takeWhile_append_stop (fun x hx => decide_eq_true (hcnq x hx))
            (by decide) _
      rw [hrm]
      simp only []
      rw [hclean2]
      have hpv : pickVersion env (some v) tgt = v := by
        unfold pickVersion
        simp only []
        rw [if_neg hv]
      rw [hpv]
      simp
  | none =>
    have hwalkA : ∀ i < (attr ++ ['=', q1]).length,
        tryMatchAt ((attr ++ ['=', q1]).drop i ++
          ((clean ++ '?' :: 'v' :: '=' :: v.data) ++ q2 :: zs)) = none := by
      intro i hi
      rcases Nat.eq_zero_or_pos i with rfl | hipos
      · rw [List.drop_zero, List.append_assoc]
        simp only [List.append_assoc, List.cons_append, List.singleton_append]
        have hdec := tryMatchAt_decomp hAI h1 hmq h2 zs
        rw [hfs] at hdec
        simp only [] at hdec
        simpa using hdec
      · rcases hD : (attr ++ ['=', q1]).drop i with _ | ⟨x, w⟩
        · have hl := congrArg List.length hD
          rw [List.length_drop] at hl
          simp only [List.length_nil] at hl
          omega
        · have hxmem : x ∈ (attr ++ ['=', q1]).drop 1 := by
            have hx : x ∈ (attr ++ ['=', q1]).drop i := by rw [hD]; simp
            have hii : i = 1 + (i - 1) := by omega
            rw [hii, ← List.drop_drop] at hx
            exact List.mem_of_mem_drop hx
          obtain ⟨hh, hs⟩ := attr_eq_tail_fail hAI h1 x hxmem
          rw [List.cons_append]
          exact tryMatchAt_cons_fail hh hs
    have hwalkM : ∀ j < (clean ++ '?' :: 'v' :: '=' :: v.data).length,
        tryMatchAt ((clean ++ '?' :: 'v' :: '=' :: v.data).drop j ++ (q2 :: zs)) = none := by
      intro j hj
      have hxq : ∀ c ∈ (clean ++ '?' :: 'v' :: '=' :: v.data).drop j, nonQuote c = true :=
        fun c hc => hmq c (List.mem_of_mem_drop hc)
      cases he : endsAttrEq ((clean ++ '?' :: 'v' :: '=' :: v.data).drop j) with
      | false => exact tryMatchAt_none_inside hxq he h2 zs
      | true =>
        rw [endsAttrEq_suffix j he] at hmae
        exact absurd hmae (by simp)
    have hstep1 : attr ++ '=' :: q1 :: ((clean ++ '?' :: 'v' :: '=' :: v.data) ++ q2 :: zs) =
        (attr ++ ['=', q1]) ++ ((clean ++ '?' :: 'v' :: '=' :: v.data) ++ q2 :: zs) := by
      simp
    rw [hstep1, cssJsSub_append_nomatch env d (some v) _ hwalkA,
      cssJsSub_append_nomatch env d (some v) _ hwalkM,
      cssJsSub_cons_none (tryMatchAt_cons_fail (quote_ne_h h2).1 (quote_ne_h h2).2)]
    simp

lemma mem_takeWhile_ne_q {l : List Char} {c : Char}
    (h : c ∈ l.takeWhile (fun x => decide (x ≠ '?'))) : c ≠ '?' := by
  have h2 := List.mem_takeWhile_imp h
  exact of_decide_eq_true h2

lemma cssJsSub_idem (env : Env) (d : String) {v : String} (hv : v ≠ "")
    (hvq : ∀ c ∈ v.data, nonQuote c = true) (hva : endsAttrEq v.data = false) :
    ∀ cs, cssJsSub env d (some v) (cssJsSub env d (some v) cs) = cssJsSub env d (some v) cs := by
  suffices H : ∀ N cs, cs.length ≤ N →
      cssJsSub env d (some v) (cssJsSub env d (some v) cs) = cssJsSub env d (some v) cs by
    exact fun cs => H cs.length cs (le_refl _)
  intro N
  induction N with
  | zero =>
    intro cs hlen
    have hnil : cs = [] := List.eq_nil_of_length_eq_zero (by omega)
    subst hnil
    rfl
  | succ N ih =>
    intro cs hlen
    rcases cs with _ | ⟨c, t⟩
    · rfl
    · cases hm : tryMatchAt (c :: t) with
      | none =>
        rw [cssJsSub_cons_none hm,
          cssJsSub_cons_none (tryMatchAt_none_preserve env d (some v) hm)]
        congr 1
        exact ih t (by simp at hlen; omega)
      | some mn =>
        rcases mn with ⟨m, n⟩
        obtain ⟨attr, q1, chunk, q2, rest, k, hAI, hq1, hchunk, hq2, hcs, hfs, hpre, hpath,
          hquery, hsuf, hn⟩ := tryMatchAt_some_inv hm
        rw [hcs, cssJsSub_match_block env d (some v) rest hAI hq1 hchunk hq2 hfs]
        have hrestlen : rest.length ≤ N := by
          have hcl := congrArg List.length hcs
          simp only [List.length_cons, List.length_append] at hcl hlen
          rcases attrIs_length hAI with h4 | h3 <;> omega
        have hIH : cssJsSub env d (some v) (cssJsSub env d (some v) rest) =
            cssJsSub env d (some v) rest := ih rest hrestlen
        rcases replaceMatch_cases env d (some v)
            (LinkMatch.mk (attr ++ ['=', q1]) (chunk.take k) (chunk.drop k) [q2]) with
          hrm | ⟨tgt, _, hrm⟩
        · have hshape : ∀ X : List Char,
              (LinkMatch.mk (attr ++ ['=', q1]) (chunk.take k) (chunk.drop k) [q2]).group0 ++
                X = attr ++ '=' :: q1 :: (chunk ++ q2 :: X) := by
            intro X
            unfold LinkMatch.group0
            simp only []
            rw [List.append_assoc (attr ++ ['=', q1]), List.take_append_drop]
            simp
          calc cssJsSub env d (some v)
                (replaceMatch env d (some v)
                  (LinkMatch.mk (attr ++ ['=', q1]) (chunk.take k) (chunk.drop k) [q2]) ++
                  cssJsSub env d (some v) rest)
              = cssJsSub env d (some v)
                  (attr ++ '=' :: q1 :: (chunk ++ q2 :: cssJsSub env d (some v) rest)) := by
                rw [hrm, hshape]
            _ = replaceMatch env d (some v)
                  (LinkMatch.mk (attr ++ ['=', q1]) (chunk.take k) (chunk.drop k) [q2]) ++
                  cssJsSub env d (some v) (cssJsSub env d (some v) rest) :=
                cssJsSub_match_block env d (some v) _ hAI hq1 hchunk hq2 hfs
            _ = _ := by rw [hIH]
        · have hpv : pickVersion env (some v) tgt = v := by
            unfold pickVersion
            simp only []
            rw [if_neg hv]
          rw [hpv] at hrm
          simp only [] at hrm
          have hcleanq : ∀ c ∈ (chunk.take k).takeWhile (fun c => decide (c ≠ '?')),
              nonQuote c = true := fun c hc =>
            hchunk c (List.take_subset k chunk ((List.takeWhile_prefix _).sublist.mem hc))
          have hcleannq : ∀ c ∈ (chunk.take k).takeWhile (fun c => decide (c ≠ '?')),
              c ≠ '?' := fun c hc => mem_takeWhile_ne_q hc
          have hshape : ∀ X : List Char,
              replaceMatch env d (some v)
                (LinkMatch.mk (attr ++ ['=', q1]) (chunk.take k) (chunk.drop k) [q2]) ++ X =
              attr ++ '=' :: q1 ::
                (((chunk.take k).takeWhile (fun c => decide (c ≠ '?')) ++
                  '?' :: 'v' :: '=' :: v.data) ++ q2 :: X) := by
            intro X
            rw [hrm]
            simp
          calc cssJsSub env d (some v)
                (replaceMatch env d (some v)
                  (LinkMatch.mk (attr ++ ['=', q1]) (chunk.take k) (chunk.drop k) [q2]) ++
                  cssJsSub env d (some v) rest)
              = cssJsSub env d (some v)
                  (attr ++ '=' :: q1 ::
                    (((chunk.take k).takeWhile (fun c => decide (c ≠ '?')) ++
                      '?' :: 'v' :: '=' :: v.data) ++
                      q2 :: cssJsSub env d (some v) rest)) := by
                rw [hshape]
            _ = (attr ++ '=' :: q1 ::
                  (((chunk.take k).takeWhile (fun c => decide (c ≠ '?')) ++
                    '?' :: 'v' :: '=' :: v.data) ++ [q2])) ++
                  cssJsSub env d (some v) (cssJsSub env d (some v) rest) :=
                cssJsSub_block env d hv hvq hva hAI hq1 hq2 hcleanq hcleannq _
            _ = _ := by
                rw [hIH, hrm]
                simp

lemma pickVersion_explicit (env : Env) {v : String} (hv : v ≠ "") (tgt : String) :
    pickVersion env (some v) tgt = v := by
  unfold pickVersion
  simp only []
  rw [if_neg hv]

lemma replaceMatch_env_ext {env env' : Env} (hpe : env'.pathExists = env.pathExists)
    (hrd : env'.rootDir = env.rootDir) (d : String) {v : String} (hv : v ≠ "")
    (m : LinkMatch) :
    replaceMatch env' d (some v) m = replaceMatch env d (some v) m := by
  simp only [replaceMatch, publicDir, hpe, hrd, pickVersion_explicit env' hv,
    pickVersion_explicit env hv]

lemma cssJsSub_env_ext {env env' : Env} (hpe : env'.pathExists = env.pathExists)
    (hrd : env'.rootDir = env.rootDir) (d : String) {v : String} (hv : v ≠ "") :
    ∀ cs, cssJsSub env' d (some v) cs = cssJsSub env d (some v) cs := by
  suffices H : ∀ N cs, cs.length ≤ N →
      cssJsSub env' d (some v) cs = cssJsSub env d (some v) cs by
    exact fun cs => H cs.length cs (le_refl _)
  intro N
  induction N with
  | zero =>
    intro cs hlen
    have hnil : cs = [] := List.eq_nil_of_length_eq_zero (by omega)
    subst hnil
    rfl
  | succ N ih =>
    intro cs hlen
    rcases cs with _ | ⟨c, t⟩
    · rfl
    · cases hm : tryMatchAt (c :: t) with
      | none =>
        rw [cssJsSub_cons_none hm, cssJsSub_cons_none hm]
        rw [ih t (by simp at hlen; omega)]
      | some mn =>
        rcases mn with ⟨m, n⟩
        rw [cssJsSub_cons_some hm, cssJsSub_cons_some hm]
        rw [replaceMatch_env_ext hpe hrd d hv m,
          ih (t.drop (n - 1)) (by simp [List.length_drop] at hlen ⊢; omega)]

lemma replaceMatch_resolution (env : Env) (d : String) (ver : Option String) (m : LinkMatch)
    (hrem : (strStarts (String.mk m.path) "http://" ||
      strStarts (String.mk m.path) "https://" || strStarts (String.mk m.path) "//") = false) :
    (env.pathExists (resolvePath (pjoin d (String.mk m.path))) = true →
      replaceMatch env d ver m =
        m.pre ++ m.path.takeWhile (fun c => decide (c ≠ '?')) ++
          ('?' :: 'v' :: '=' ::
            (pickVersion env ver (resolvePath (pjoin d (String.mk m.path)))).data) ++ m.suf) ∧
    (env.pathExists (resolvePath (pjoin d (String.mk m.path))) = false →
      env.pathExists (resolvePath (pjoin (publicDir env) (String.mk m.path))) = true →
      replaceMatch env d ver m =
        m.pre ++ m.path.takeWhile (fun c => decide (c ≠ '?')) ++
          ('?' :: 'v' :: '=' ::
            (pickVersion env ver
              (resolvePath (pjoin (publicDir env) (String.mk m.path)))).data) ++ m.suf) ∧
    (env.pathExists (resolvePath (pjoin d (String.mk m.path))) = false →
      env.pathExists (resolvePath (pjoin (publicDir env) (String.mk m.path))) = false →
      replaceMatch env d ver m = m.group0) := by
  refine ⟨fun h1 => ?_, fun h1 h2 => ?_, fun h1 h2 => ?_⟩
  · simp [replaceMatch, hrem, h1]
  · simp [replaceMatch, hrem, h1, h2]
  · simp [replaceMatch, hrem, h1, h2]

lemma cssJsSub_id_of_nomatch (env : Env) (d : String) (ver : Option String)
    {cs : List Char} (h : ∀ i < cs.length, tryMatchAt (cs.drop i) = none) :
    cssJsSub env d ver cs = cs := by
  have h' : ∀ i < cs.length, tryMatchAt (cs.drop i ++ ([] : List Char)) = none := by
    intro i hi
    rw [List.append_nil]
    exact h i hi
  have := cssJsSub_append_nomatch env d ver ([] : List Char) h'
  rw [List.append_nil] at this
  rw [this]
  show cs ++ ([] : List Char) = cs
  rw [List.append_nil]

/-! ### Claim theorems -/

/-- C1 (counterexample): with the empty explicit version string, Python's
`version or mtime_version(target)` is falsy, so the rewritten link does not
carry the empty string verbatim, and the result does depend on the asset's
modification time (two environments differing only in `mtimeInt` give
different outputs). -/
theorem c1_empty_version_counterexample :
    replaceMatch
        (Env.mk (fun p => p == "/r/public/a.css") (fun _ => some 7) 9 "/r")
        "/r/public" (some "")
        (LinkMatch.mk ['h', 'r', 'e', 'f', '=', '"'] ['a', '.', 'c', 's', 's'] [] ['"']) ≠
      ['h', 'r', 'e', 'f', '=', '"'] ++ ['a', '.', 'c', 's', 's'] ++
        ('?' :: 'v' :: '=' :: ("" : String).data) ++ ['"'] ∧
    replaceMatch
        (Env.mk (fun p => p == "/r/public/a.css") (fun _ => some 7) 9 "/r")
        "/r/public" (some "")
        (LinkMatch.mk ['h', 'r', 'e', 'f', '=', '"'] ['a', '.', 'c', 's', 's'] [] ['"']) ≠
      replaceMatch
        (Env.mk (fun p => p == "/r/public/a.css") (fun _ => some 8) 9 "/r")
        "/r/public" (some "")
        (LinkMatch.mk ['h', 'r', 'e', 'f', '=', '"'] ['a', '.', 'c', 's', 's'] [] ['"']) := by
  decide

/-- C1 (amended): for every run whose explicit version string is non-empty,
every rewritten link carries that string verbatim as its version token, and
no modification-time lookup is performed: the result is unchanged under any
change of the environment's `mtimeInt` and `nowInt` fields. -/
theorem c1_nonempty_version_verbatim (env env' : Env) (d v : String) (hv : v ≠ "")
    (hpe : env'.pathExists = env.pathExists) (hrd : env'.rootDir = env.rootDir)
    (m : LinkMatch)
    (hrem : (strStarts (String.mk m.path) "http://" ||
      strStarts (String.mk m.path) "https://" || strStarts (String.mk m.path) "//") = false)
    (hex : env.pathExists (resolvePath (pjoin d (String.mk m.path))) = true ∨
      (env.pathExists (resolvePath (pjoin d (String.mk m.path))) = false ∧
       env.pathExists (resolvePath (pjoin (publicDir env) (String.mk m.path))) = true)) :
    replaceMatch env d (some v) m =
      m.pre ++ m.path.takeWhile (fun c => decide (c ≠ '?')) ++
        ('?' :: 'v' :: '=' :: v.data) ++ m.suf ∧
    replaceMatch env' d (some v) m = replaceMatch env d (some v) m := by
  constructor
  · rcases hex with h1 | ⟨h1, h2⟩
    · have hr := (replaceMatch_resolution env d (some v) m hrem).1 h1
      rw [pickVersion_explicit env hv] at hr
      exact hr
    · have hr := (replaceMatch_resolution env d (some v) m hrem).2.1 h1 h2
      rw [pickVersion_explicit env hv] at hr
      exact hr
  · exact replaceMatch_env_ext hpe hrd d hv m

/-- C1 (witness). -/
theorem c1_nonempty_version_verbatim_witness :
    ("abc" : String) ≠ "" ∧
    replaceMatch
        (Env.mk (fun p => p == "/r/public/a.css") (fun _ => some 7) 9 "/r")
        "/r/public" (some "abc")
        (LinkMatch.mk ['h', 'r', 'e', 'f', '=', '"'] ['a', '.', 'c', 's', 's'] [] ['"']) =
      ['h', 'r', 'e', 'f', '=', '"'] ++
        (['a', '.', 'c', 's', 's'].takeWhile (fun c => decide (c ≠ '?'))) ++
        ('?' :: 'v' :: '=' :: ("abc" : String).data) ++ ['"'] :=
  ⟨by decide,
    (c1_nonempty_version_verbatim
      (Env.mk (fun p => p == "/r/public/a.css") (fun _ => some 7) 9 "/r")
      (Env.mk (fun p => p == "/r/public/a.css") (fun _ => some 8) 100 "/r")
      "/r/public" "abc" (by decide) rfl rfl
      (LinkMatch.mk ['h', 'r', 'e', 'f', '=', '"'] ['a', '.', 'c', 's', 's'] [] ['"'])
      (by decide) (Or.inl (by decide))).1⟩

/-- C2: a matched non-remote path is resolved first against the HTML file's
directory; if that file does not exist, against the public directory root;
if neither exists, the match is returned unchanged.  This holds for every
path shape (absolute paths collapse both candidates to the same path via
`pjoin`). -/
theorem c2_resolution_order (env : Env) (d : String) (ver : Option String) (m : LinkMatch)
    (hrem : (strStarts (String.mk m.path) "http://" ||
      strStarts (String.mk m.path) "https://" || strStarts (String.mk m.path) "//") = false) :
    (env.pathExists (resolvePath (pjoin d (String.mk m.path))) = true →
      replaceMatch env d ver m =
        m.pre ++ m.path.takeWhile (fun c => decide (c ≠ '?')) ++
          ('?' :: 'v' :: '=' ::
            (pickVersion env ver (resolvePath (pjoin d (String.mk m.path)))).data) ++ m.suf) ∧
    (env.pathExists (resolvePath (pjoin d (String.mk m.path))) = false →
      env.pathExists (resolvePath (pjoin (publicDir env) (String.mk m.path))) = true →
      replaceMatch env d ver m =
        m.pre ++ m.path.takeWhile (fun c => decide (c ≠ '?')) ++
          ('?' :: 'v' :: '=' ::
            (pickVersion env ver
              (resolvePath (pjoin (publicDir env) (String.mk m.path)))).data) ++ m.suf) ∧
    (env.pathExists (resolvePath (pjoin d (String.mk m.path))) = false →
      env.pathExists (resolvePath (pjoin (publicDir env) (String.mk m.path))) = false →
      replaceMatch env d ver m = m.group0) :=
  replaceMatch_resolution env d ver m hrem

/-- C2 (witness): a relative path that exists only under the public root is
resolved through the fallback, and a missing path is a silent no-op. -/
theorem c2_resolution_order_witness :
    replaceMatch
        (Env.mk (fun p => p == "/r/public/s.css") (fun _ => some 7) 9 "/r")
        "/r/public/sub" (some "x")
        (LinkMatch.mk ['h', 'r', 'e', 'f', '=', '"'] ['s', '.', 'c', 's', 's'] [] ['"']) =
      ['h', 'r', 'e', 'f', '=', '"'] ++
        (['s', '.', 'c', 's', 's'].takeWhile (fun c => decide (c ≠ '?'))) ++
        ('?' :: 'v' :: '=' ::
          (pickVersion (Env.mk (fun p => p == "/r/public/s.css") (fun _ => some 7) 9 "/r")
            (some "x") (resolvePath (pjoin
              (publicDir (Env.mk (fun p => p == "/r/public/s.css") (fun _ => some 7) 9 "/r"))
              (String.mk ['s', '.', 'c', 's', 's'])))).data) ++ ['"'] :=
  (c2_resolution_order
    (Env.mk (fun p => p == "/r/public/s.css") (fun _ => some 7) 9 "/r")
    "/r/public/sub" (some "x")
    (LinkMatch.mk ['h', 'r', 'e', 'f', '=', '"'] ['s', '.', 'c', 's', 's'] [] ['"'])
    (by decide)).2.1 (by decide) (by decide)

/-- C3 (counterexample): with the explicit version string consisting of one
double-quote character, a second pass over the output of the first pass
produces a different text, because the emitted quote character re-combines
with the closing quote into a fresh match. -/
theorem c3_second_pass_counterexample :
    processText
        (Env.mk (fun p => p == "/r/public/a.css") (fun _ => some 7) 9 "/r")
        "/r/public" (some (String.mk ['"']))
        (processText
          (Env.mk (fun p => p == "/r/public/a.css") (fun _ => some 7) 9 "/r")
          "/r/public" (some (String.mk ['"']))
          (String.mk ['h', 'r', 'e', 'f', '=', '"', 'a', '.', 'c', 's', 's', '"'])) ≠
      processText
        (Env.mk (fun p => p == "/r/public/a.css") (fun _ => some 7) 9 "/r")
        "/r/public" (some (String.mk ['"']))
        (String.mk ['h', 'r', 'e', 'f', '=', '"', 'a', '.', 'c', 's', 's', '"']) := by
  decide

/-- C3 (amended): for every input text and every explicit version string
that is non-empty, contains no quote character, and does not end
(case-insensitively) in `href=` or `src=`, a second pass with the same
version yields output identical to the first pass. -/
theorem c3_fixed_version_idempotent (env : Env) (d : String) (v : String) (text : String)
    (hv : v ≠ "") (hq : ∀ c ∈ v.data, nonQuote c = true)
    (ha : endsAttrEq v.data = false) :
    processText env d (some v) (processText env d (some v) text) =
      processText env d (some v) text := by
  unfold processText
  exact congrArg String.mk (cssJsSub_idem env d hv hq ha text.data)

/-- C3 (witness). -/
theorem c3_fixed_version_idempotent_witness :
    (("v2" : String) ≠ "" ∧ (∀ c ∈ ("v2" : String).data, nonQuote c = true) ∧
      endsAttrEq ("v2" : String).data = false) ∧
    processText
        (Env.mk (fun p => p == "/r/public/a.css") (fun _ => some 7) 9 "/r")
        "/r/public" (some "v2")
        (processText
          (Env.mk (fun p => p == "/r/public/a.css") (fun _ => some 7) 9 "/r")
          "/r/public" (some "v2")
          (String.mk ['h', 'r', 'e', 'f', '=', '"', 'a', '.', 'c', 's', 's', '"'])) =
      processText
        (Env.mk (fun p => p == "/r/public/a.css") (fun _ => some 7) 9 "/r")
        "/r/public" (some "v2")
        (String.mk ['h', 'r', 'e', 'f', '=', '"', 'a', '.', 'c', 's', 's', '"']) :=
  ⟨⟨by decide, by decide, by decide⟩,
    c3_fixed_version_idempotent
      (Env.mk (fun p => p == "/r/public/a.css") (fun _ => some 7) 9 "/r")
      "/r/public" "v2"
      (String.mk ['h', 'r', 'e', 'f', '=', '"', 'a', '.', 'c', 's', 's', '"'])
      (by decide) (by decide) (by decide)⟩

/-- C4: every link the code rewrites has its pre-existing query string
discarded: the output is `prefix ++ cleaned-path ++ "?v=" ++ version ++
suffix`, where the cleaned path is the captured path up to its first `?`
and contains no `?` at all. -/
theorem c4_query_replacement (env : Env) (d : String) (ver : Option String) (m : LinkMatch)
    (hrem : (strStarts (String.mk m.path) "http://" ||
      strStarts (String.mk m.path) "https://" || strStarts (String.mk m.path) "//") = false)
    (hex : env.pathExists (resolvePath (pjoin d (String.mk m.path))) = true ∨
      (env.pathExists (resolvePath (pjoin d (String.mk m.path))) = false ∧
       env.pathExists (resolvePath (pjoin (publicDir env) (String.mk m.path))) = true)) :
    ∃ vs : String,
      replaceMatch env d ver m =
        m.pre ++ m.path.takeWhile (fun c => decide (c ≠ '?')) ++
          ('?' :: 'v' :: '=' :: vs.data) ++ m.suf ∧
      (m.path.takeWhile (fun c => decide (c ≠ '?'))).count '?' = 0 := by
  have hcount : (m.path.takeWhile (fun c => decide (c ≠ '?'))).count '?' = 0 := by
    rw [List.count_eq_zero]
    intro hmem
    have : ('?' : Char) ≠ '?' := mem_takeWhile_ne_q hmem
    simp at this
  rcases hex with h1 | ⟨h1, h2⟩
  · exact ⟨pickVersion env ver (resolvePath (pjoin d (String.mk m.path))),
      (replaceMatch_resolution env d ver m hrem).1 h1, hcount⟩
  · exact ⟨pickVersion env ver (resolvePath (pjoin (publicDir env) (String.mk m.path))),
      (replaceMatch_resolution env d ver m hrem).2.1 h1 h2, hcount⟩

/-- C4 (witness): a link already carrying `?v=old` is rewritten with exactly
one fresh `?v=` token. -/
theorem c4_query_replacement_witness :
    ∃ vs : String,
      replaceMatch
          (Env.mk (fun p => p == "/r/public/a.css") (fun _ => some 7) 9 "/r")
          "/r/public" (some "new")
          (LinkMatch.mk ['h', 'r', 'e', 'f', '=', '"'] ['a', '.', 'c', 's', 's']
            ['?', 'v', '=', 'o', 'l', 'd'] ['"']) =
        ['h', 'r', 'e', 'f', '=', '"'] ++
          (['a', '.', 'c', 's', 's'].takeWhile (fun c => decide (c ≠ '?'))) ++
          ('?' :: 'v' :: '=' :: vs.data) ++ ['"'] ∧
      ((['a', '.', 'c', 's', 's'] : List Char).takeWhile
        (fun c => decide (c ≠ '?'))).count '?' = 0 :=
  c4_query_replacement
    (Env.mk (fun p => p == "/r/public/a.css") (fun _ => some 7) 9 "/r")
    "/r/public" (some "new")
    (LinkMatch.mk ['h', 'r', 'e', 'f', '=', '"'] ['a', '.', 'c', 's', 's']
      ['?', 'v', '=', 'o', 'l', 'd'] ['"'])
    (by decide) (Or.inl (by decide))

/-- C5: a matched path beginning with `http://`, `https://`, or `//` is
returned byte-for-byte unchanged (`match.group(0)`). -/
theorem c5_remote_links_unchanged (env : Env) (d : String) (ver : Option String)
    (m : LinkMatch)
    (h : strStarts (String.mk m.path) "http://" = true ∨
      strStarts (String.mk m.path) "https://" = true ∨
      strStarts (String.mk m.path) "//" = true) :
    replaceMatch env d ver m = m.group0 := by
  have hc : (strStarts (String.mk m.path) "http://" ||
      strStarts (String.mk m.path) "https://" || strStarts (String.mk m.path) "//") = true := by
    rcases h with h | h | h <;> simp [h]
  simp [replaceMatch, hc]

/-- C5 (witness). -/
theorem c5_remote_links_unchanged_witness :
    replaceMatch
        (Env.mk (fun _ => true) (fun _ => some 7) 9 "/r")
        "/r/public" (some "x")
        (LinkMatch.mk ['s', 'r', 'c', '=', '"']
          ['h', 't', 't', 'p', 's', ':', '/', '/', 'c', '.', 'd', '/', 'a', '.', 'j', 's']
          [] ['"']) =
      (LinkMatch.mk ['s', 'r', 'c', '=', '"']
        ['h', 't', 't', 'p', 's', ':', '/', '/', 'c', '.', 'd', '/', 'a', '.', 'j', 's']
        [] ['"']).group0 :=
  c5_remote_links_unchanged
    (Env.mk (fun _ => true) (fun _ => some 7) 9 "/r")
    "/r/public" (some "x")
    (LinkMatch.mk ['s', 'r', 'c', '=', '"']
      ['h', 't', 't', 'p', 's', ':', '/', '/', 'c', '.', 'd', '/', 'a', '.', 'j', 's']
      [] ['"'])
    (Or.inr (Or.inl (by decide)))

/-- C6: computing the version token from a modification time is total: when
`stat` fails (modelled by `mtimeInt` returning `none`), `mtime_version`
returns the integer-truncated current time instead of raising. -/
theorem c6_mtime_fallback_total (env : Env) (p : String) (h : env.mtimeInt p = none) :
    mtimeVersion env p = toString env.nowInt := by
  unfold mtimeVersion
  rw [h]

/-- C6 (witness). -/
theorem c6_mtime_fallback_total_witness :
    mtimeVersion (Env.mk (fun _ => true) (fun _ => none) 424242 "/r") "/r/public/a.css" =
      toString (Env.mk (fun _ => true) (fun _ => none) 424242 "/r").nowInt :=
  c6_mtime_fallback_total (Env.mk (fun _ => true) (fun _ => none) 424242 "/r")
    "/r/public/a.css" rfl

/-- C7: when the public directory does not exist, the run prints
`public/ not found`, exits with status 1, and writes nothing; the outcome is
independent of the HTML files, so no file is read or written. -/
theorem c7_missing_public_aborts (env : Env) (ver : Option String)
    (files : List (String × String)) (h : env.pathExists (publicDir env) = false) :
    mainRun env ver files =
      { exitCode := 1, stdout := ["public/ not found"], writes := [] } ∧
    mainRun env ver files = mainRun env ver [] := by
  constructor <;> simp [mainRun, h]

/-- C7 (witness). -/
theorem c7_missing_public_aborts_witness :
    mainRun (Env.mk (fun _ => false) (fun _ => some 7) 9 "/r") (some "x")
        [("/r/public/i.html", "<p>hi</p>")] =
      { exitCode := 1, stdout := ["public/ not found"], writes := [] } :=
  (c7_missing_public_aborts (Env.mk (fun _ => false) (fun _ => some 7) 9 "/r") (some "x")
    [("/r/public/i.html", "<p>hi</p>")] rfl).1

/-- C8: `process_file` writes the file back exactly when the substituted
text differs from the original, and prints the `Updated:` notice exactly
for those files; an unchanged file is neither written nor reported. -/
theorem c8_write_iff_changed (env : Env) (ver : Option String) (p text : String) :
    (processText env (dirname p) ver text = text →
      (processFile env ver p text).newContent = none ∧
      (processFile env ver p text).output = []) ∧
    (processText env (dirname p) ver text ≠ text →
      (processFile env ver p text).newContent = some (processText env (dirname p) ver text) ∧
      (processFile env ver p text).output = ["Updated: " ++ relToRoot env.rootDir p]) := by
  constructor
  · intro h
    simp [processFile, h]
  · intro h
    simp [processFile, h]

/-- C8 (witness): a file whose text contains no matchable link is untouched
and unreported. -/
theorem c8_write_iff_changed_witness :
    (processFile (Env.mk (fun _ => true) (fun _ => some 7) 9 "/r") (some "x")
      "/r/public/i.html" "<p>hi</p>").newContent = none ∧
    (processFile (Env.mk (fun _ => true) (fun _ => some 7) 9 "/r") (some "x")
      "/r/public/i.html" "<p>hi</p>").output = [] :=
  (c8_write_iff_changed (Env.mk (fun _ => true) (fun _ => some 7) 9 "/r") (some "x")
    "/r/public/i.html" "<p>hi</p>").1 (by decide)

/-- C9: the scanner only ever matches values decomposable as a path ending
(case-insensitively) in `.css` or `.js` followed by an optional `?...`
query, so an `href`/`src` value like `.png` or `.html` is never matched;
and a text in which no position matches is returned unchanged. -/
theorem c9_non_cssjs_ignored (env : Env) (d : String) (ver : Option String)
    (cs : List Char) :
    (∀ m n, tryMatchAt cs = some (m, n) →
      validPath m.path = true ∧ validQuery m.query = true) ∧
    ((∀ i < cs.length, tryMatchAt (cs.drop i) = none) → cssJsSub env d ver cs = cs) := by
  constructor
  · intro m n hm
    obtain ⟨attr, q1, chunk, q2, rest, k, _, _, _, _, _, hfs, _, hpath, hquery, _, _⟩ :=
      tryMatchAt_some_inv hm
    obtain ⟨_, _, hvp, hvq⟩ := findSplit_some_facts hfs
    rw [hpath, hquery]
    exact ⟨hvp, hvq⟩
  · exact cssJsSub_id_of_nomatch env d ver

/-- C9 (witness): an `href` pointing at a `.png` is never matched, and the
whole text passes through unchanged. -/
theorem c9_non_cssjs_ignored_witness :
    cssJsSub (Env.mk (fun _ => true) (fun _ => some 7) 9 "/r") "/r/public" (some "x")
        ("<img src=\"photo.png\">" : String).data =
      ("<img src=\"photo.png\">" : String).data :=
  (c9_non_cssjs_ignored (Env.mk (fun _ => true) (fun _ => some 7) 9 "/r") "/r/public"
    (some "x") ("<img src=\"photo.png\">" : String).data).2 (by decide)

/-- C10: with a non-empty explicit version string, the output text depends
only on which files exist (and the root directory), not on any
modification time or on the clock: two environments agreeing on
`pathExists` and `rootDir` produce identical output. -/
theorem c10_fixed_version_deterministic (env env' : Env) (d v text : String)
    (hv : v ≠ "") (hpe : env'.pathExists = env.pathExists)
    (hrd : env'.rootDir = env.rootDir) :
    processText env' d (some v) text = processText env d (some v) text := by
  unfold processText
  exact congrArg String.mk (cssJsSub_env_ext hpe hrd d hv text.data)

/-- C10 (witness): changing every modification time and the clock leaves the
output unchanged when an explicit non-empty version is supplied. -/
theorem c10_fixed_version_deterministic_witness :
    ("v2" : String) ≠ "" ∧
    processText (Env.mk (fun p => p == "/r/public/a.css") (fun _ => some 123456) 777 "/r")
        "/r/public" (some "v2")
        (String.mk ['h', 'r', 'e', 'f', '=', '"', 'a', '.', 'c', 's', 's', '"']) =
      processText (Env.mk (fun p => p == "/r/public/a.css") (fun _ => some 7) 9 "/r")
        "/r/public" (some "v2")
        (String.mk ['h', 'r', 'e', 'f', '=', '"', 'a', '.', 'c', 's', 's', '"']) :=
  ⟨by decide,
    c10_fixed_version_deterministic
      (Env.mk (fun p => p == "/r/public/a.css") (fun _ => some 7) 9 "/r")
      (Env.mk (fun p => p == "/r/public/a.css") (fun _ => some 123456) 777 "/r")
      "/r/public" "v2"
      (String.mk ['h', 'r', 'e', 'f', '=', '"', 'a', '.', 'c', 's', 's', '"'])
      (by decide) rfl rfl⟩
